import Mathlib

/-
Verification of the price-list ingestion engine of
BlessBean_AutoOrder_iPhone_Optimized (src/src/App.tsx).

The engine consists of the text/number normalizer (sanitizeText,
normalizeCountry, inline currency parsing) and the workbook scanner
inside handleExcelUpload (lines 139-189 of App.tsx).  Everything below
is a shallow embedding of that TypeScript code:

  * strings are Lean strings (lists of Unicode scalar values);
    String.prototype.normalize("NFC") is modelled by the Unicode
    canonical decomposition / canonical reordering / canonical
    composition algorithm restricted to a documented character-data
    fragment (see nfcChars below): exact on text whose combining
    marks and decomposable letters lie in the fragment and on text of
    starters without canonical decomposition, and in particular on
    the ASCII and precomposed Korean text of this development;
  * spreadsheet cells are either strings or numbers; numeric cell
    values are modelled at integer precision, so that the JavaScript
    round-trip Number(String(x)) is exactly x and String(x) is the
    plain decimal rendering;
  * the ECMAScript ToNumber coercion of a string is modelled for
    decimal literals (optional sign, digits, optional fraction); hex,
    exponent and "Infinity" forms are outside the modelled fragment
    and NaN is represented by Option.none, so every parsed value is a
    finite rational;
  * the workbook is the decoded sheet-name/row-grid list handed to
    the scanner by the xlsx decoder; rows may be ragged, and a cell
    read past the end of its row yields none, mirroring the undefined
    result of an out-of-range array access in JavaScript.
-/

/-! ### JavaScript character classes -/

/-- Character class of the ECMAScript regular-expression escape
backslash-s (WhiteSpace plus LineTerminator), used by the source's
whitespace-collapsing replace, by String.prototype.trim, by
String.prototype.split on a whitespace pattern, and by the whitespace
stripping inside the currency regex. -/
def isJsSpace (c : Char) : Bool :=
  c = '\t' || c = '\n' || c = '\u000B' || c = '\u000C' || c = '\r' || c = ' ' ||
  c = '\u00A0' || c = '\u1680' || ('\u2000' ≤ c && c ≤ '\u200A') ||
  c = '\u2028' || c = '\u2029' || c = '\u202F' || c = '\u205F' ||
  c = '\u3000' || c = '\uFEFF'

/-- The zero-width characters removed by sanitizeText: U+200B through
U+200D and the byte-order mark U+FEFF. -/
def isZeroWidth (c : Char) : Bool :=
  ('\u200B' ≤ c && c ≤ '\u200D') || c = '\uFEFF'

/-! ### Unicode canonical composition (the normalize("NFC") step) -/

/-- Canonical combining class of the modelled NFC fragment: the
combining marks U+0300 (grave) through U+0304 (macron), each of
canonical combining class 230 in UnicodeData; every other character
is treated as class zero (exact for text whose combining marks are
drawn from this range). -/
def ccc (c : Char) : Nat :=
  if '\u0300' ≤ c ∧ c ≤ '\u0304' then 230 else 0

/-- Canonical decomposition data of the modelled NFC fragment, as
triples of a composed character, its base and its combining mark:
the Latin-1 letters whose UnicodeData canonical decomposition is a
base letter followed by one of the modelled marks.  Characters
outside the table are treated as having no canonical decomposition
and no compositions; this is exact for ASCII and for the combining
marks themselves, and extensionally exact for precomposed Hangul
syllables, whose algorithmic decomposition and recomposition cancel
under the full algorithm. -/
def canonDecompTable : List (Char × Char × Char) :=
  [('\u00E0', 'a', '\u0300'), ('\u00E1', 'a', '\u0301'), ('\u00E2', 'a', '\u0302'),
   ('\u00E3', 'a', '\u0303'),
   ('\u00E8', 'e', '\u0300'), ('\u00E9', 'e', '\u0301'), ('\u00EA', 'e', '\u0302'),
   ('\u00EC', 'i', '\u0300'), ('\u00ED', 'i', '\u0301'),
   ('\u00F1', 'n', '\u0303'),
   ('\u00F2', 'o', '\u0300'), ('\u00F3', 'o', '\u0301'),
   ('\u00F9', 'u', '\u0300'), ('\u00FA', 'u', '\u0301')]

/-- Canonical decomposition of one character of the fragment. -/
def decompLookup : List (Char × Char × Char) → Char → Option (Char × Char)
  | [], _ => none
  | (comp, base, mark) :: r, c => if c = comp then some (base, mark) else decompLookup r c

/-- Primary composite of a base and a mark in the fragment. -/
def compLookup : List (Char × Char × Char) → Char → Char → Option Char
  | [], _, _ => none
  | (comp, base, mark) :: r, a, b =>
    if a = base ∧ b = mark then some comp else compLookup r a b

/-- Canonical decomposition of a character (the fragment's mappings
are one level deep, so no recursion is needed). -/
def canonDecomp (c : Char) : List Char :=
  match decompLookup canonDecompTable c with
  | some (b, m) => [b, m]
  | none => [c]

/-- Canonical decomposition of a character list. -/
def decompAll : List Char → List Char
  | [] => []
  | c :: r => canonDecomp c ++ decompAll r

/-- Stable insertion before the first mark of combining class not
smaller than the inserted mark's. -/
def insertByCcc (c : Char) : List Char → List Char
  | [] => [c]
  | d :: rest => if ccc d < ccc c then d :: insertByCcc c rest else c :: d :: rest

/-- Stable sort of one run of combining marks by combining class. -/
def sortRun : List Char → List Char
  | [] => []
  | c :: rest => insertByCcc c (sortRun rest)

/-- Canonical ordering: each maximal run of non-starters is stably
sorted by combining class, with starters left in place (the run is
accumulated in reverse and restored on flushing). -/
def reorderAux : List Char → List Char → List Char
  | run, [] => sortRun run.reverse
  | run, c :: rest =>
    if ccc c = 0 then sortRun run.reverse ++ c :: reorderAux [] rest
    else reorderAux (c :: run) rest

/-- Canonical ordering of a character list. -/
def canonicalReorder (l : List Char) : List Char :=
  reorderAux [] l

/-- Canonical composition after a starter: a non-starter combines
with the last starter when the pair is in the table and no mark seen
since the starter has a combining class at least its own (the
blocking rule); a new starter flushes the run (the fragment has no
starter-with-starter composites, so none is attempted).  The marks
seen since the starter are accumulated in reverse. -/
def nfcComposeAux : Char → List Char → List Char → List Char
  | st, seen, [] => st :: seen.reverse
  | st, seen, c :: rest =>
    if ccc c = 0 then st :: seen.reverse ++ nfcComposeAux c [] rest
    else
      match compLookup canonDecompTable st c with
      | some d =>
        if seen.all fun b => ccc b < ccc c then nfcComposeAux d seen rest
        else nfcComposeAux st (c :: seen) rest
      | none => nfcComposeAux st (c :: seen) rest

/-- Canonical composition of a character list; marks before the
first starter have nothing to combine with and pass through. -/
def nfcCompose : List Char → List Char
  | [] => []
  | c :: rest => if ccc c = 0 then nfcComposeAux c [] rest else c :: nfcCompose rest

/-- The modelled normalize("NFC"): canonical decomposition, canonical
ordering, canonical composition, over the documented fragment. -/
def nfcChars (l : List Char) : List Char :=
  nfcCompose (canonicalReorder (decompAll l))

/-! ### sanitizeText (App.tsx lines 24-33) -/

/-- Replace non-breaking spaces by ordinary spaces. -/
def replNbsp (l : List Char) : List Char :=
  l.map fun c => if c = '\u00A0' then ' ' else c

/-- Remove zero-width characters. -/
def stripZeroWidth (l : List Char) : List Char :=
  l.filter fun c => !isZeroWidth c

/-- Replace carriage returns and tabs by spaces. -/
def replCrTab (l : List Char) : List Char :=
  l.map fun c => if c = '\r' || c = '\t' then ' ' else c

/-- Collapse every maximal run of whitespace to a single space,
modelling replace of a one-or-more-whitespace pattern by a single
space.  The boolean records whether the previous character already
belonged to a whitespace run. -/
def collapseWs : List Char → Bool → List Char
  | [], _ => []
  | c :: r, prev =>
    if isJsSpace c then
      if prev then collapseWs r true else ' ' :: collapseWs r true
    else c :: collapseWs r false

/-- Drop a maximal trailing run of whitespace. -/
def dropTrailingWs : List Char → List Char
  | [] => []
  | c :: r =>
    let r' := dropTrailingWs r
    if r'.isEmpty && isJsSpace c then [] else c :: r'

/-- String.prototype.trim: drop leading and trailing whitespace. -/
def trimWs (l : List Char) : List Char :=
  dropTrailingWs (l.dropWhile isJsSpace)

/-- Character pipeline of sanitizeText, beginning with the source's
normalize("NFC") step (modelled by nfcChars). -/
def sanitizeChars (l : List Char) : List Char :=
  trimWs (collapseWs (replCrTab (stripZeroWidth (replNbsp (nfcChars l)))) false)

/-- sanitizeText (App.tsx lines 24-33): NFC-normalize, turn NBSP into
spaces, strip zero-width characters, turn CR and TAB into spaces,
collapse whitespace runs, trim. -/
def sanitizeText (s : String) : String :=
  ⟨sanitizeChars s.data⟩

/-- The defensive null-coalescing entry of sanitizeText: a missing
input is treated as the empty string. -/
def sanitizeTextOpt (o : Option String) : String :=
  sanitizeText (o.getD "")

/-! ### normalizeCountry (App.tsx lines 15-21, 35-41) -/

/-- COUNTRY_ISO_MAP (App.tsx lines 15-21): the fixed canonical
country-name table, as an association list with the source's entry
order.  All keys are distinct and all values are non-empty strings,
so for an own key the source's truthiness guard always passes. -/
def COUNTRY_ISO_MAP : List (String × String) :=
  [("브라질", "BR"), ("콜롬비아", "CO"), ("에티오피아", "ET"), ("과테말라", "GT"),
   ("인도네시아", "ID"), ("인도", "IN"), ("케냐", "KE"), ("엘살바도르", "SV"),
   ("온두라스", "HN"), ("자메이카", "JM"), ("탄자니아", "TN"), ("디카페인", "[디카페인]"),
   ("베트남", "VN"), ("코스타리카", "CR"), ("니카라과", "NI"), ("멕시코", "MX"),
   ("페루", "PE"), ("파푸아뉴기니", "PG"), ("예멘", "YE"), ("르완다", "RW"),
   ("우간다", "UG"), ("파나마", "PA"), ("하와이", "US")]

/-- The own-property part of the source's record access: lookup of
an own key in the association list.  The source's plain-object access
can also find truthy inherited members of Object.prototype; that case
is handled separately below. -/
def lookupCountry : List (String × String) → String → Option String
  | [], _ => none
  | (k, v) :: r, s => if s = k then some v else lookupCountry r s

/-- The property names a plain object literal inherits from
Object.prototype.  Accessing any of them on COUNTRY_ISO_MAP yields a
truthy value (a built-in function object, or the prototype object
itself for the proto accessor), so the source's truthiness guard
passes although the name is not an own key of the table. -/
def OBJECT_PROTOTYPE_MEMBERS : List String :=
  ["constructor", "hasOwnProperty", "isPrototypeOf", "propertyIsEnumerable",
   "toLocaleString", "toString", "valueOf", "__proto__", "__defineGetter__",
   "__defineSetter__", "__lookupGetter__", "__lookupSetter__"]

/-- Modelled escape from the string domain: when the sanitized key
names an inherited Object.prototype member, the source assigns that
member — a function object or the prototype object, not a string —
to its local variable and returns it.  The embedding represents the
returned object by this marker; no theorem depends on the marker
beyond its being non-empty and distinct from the cleaned text. -/
def inheritedObjectMember (s : String) : String :=
  "[Object.prototype]." ++ s

/-- Tokens of split on a one-or-more-whitespace pattern followed by a
filter keeping only non-empty (truthy) tokens: the maximal
non-whitespace runs, accumulated left to right. -/
def tokensAux : List Char → List Char → List (List Char)
  | [], acc => if acc.isEmpty then [] else [acc.reverse]
  | c :: r, acc =>
    if isJsSpace c then
      if acc.isEmpty then tokensAux r [] else acc.reverse :: tokensAux r []
    else tokensAux r (c :: acc)

/-- Whitespace-separated tokens of a character list. -/
def tokensOf (l : List Char) : List (List Char) :=
  tokensAux l []

/-- UTF-16 length of a token; the source tests token length with the
JavaScript length property, which counts UTF-16 code units. -/
def utf16Len (t : List Char) : Nat :=
  t.foldl (fun a c => a + (if c.toNat < 0x10000 then 1 else 2)) 0

/-- Concatenation of tokens, modelling join with the empty separator. -/
def joinTokens : List (List Char) → List Char
  | [] => []
  | t :: r => t ++ joinTokens r

/-- normalizeCountry (App.tsx lines 35-41): sanitize, rejoin a fully
letter-spaced name (more than one token, every token a single UTF-16
unit), then canonicalize through COUNTRY_ISO_MAP.  The lookup guard
is plain-object property access: an own key yields its code, a name
inherited from Object.prototype yields that truthy inherited member
(modelled by the marker above), and only otherwise is the cleaned
text returned unchanged. -/
def normalizeCountry (raw : String) : String :=
  let s := sanitizeText raw
  let tks := tokensOf s.data
  let s' := if 1 < tks.length ∧ (∀ t ∈ tks, utf16Len t = 1) then ⟨joinTokens tks⟩ else s
  match lookupCountry COUNTRY_ISO_MAP s' with
  | some v => v
  | none => if s' ∈ OBJECT_PROTOTYPE_MEMBERS then inheritedObjectMember s' else s'

/-- The letter-spaced variant of a name: a single space between
consecutive characters. -/
def letterSpacedChars : List Char → List Char
  | [] => []
  | [c] => [c]
  | c :: d :: r => c :: ' ' :: letterSpacedChars (d :: r)

/-- Letter-spaced variant of a string, such as the spaced form of a
corrupted country name. -/
def letterSpaced (s : String) : String :=
  ⟨letterSpacedChars s.data⟩

/-! ### Cells and number coercion -/

/-- A decoded spreadsheet cell: a string or a (finite) number.  The
xlsx decoder is invoked with a default value of the empty string, so
blank in-range cells arrive as empty-string cells. -/
inductive Cell where
  | str (s : String)
  | num (n : Int)
deriving DecidableEq, Repr

/-- A row of the decoded grid; rows may be ragged. -/
abbrev Row := List Cell

/-- A decoded workbook: the sheet names in order, each with its grid. -/
abbrev Workbook := List (String × List Row)

/-- JavaScript String(cell): a string cell is itself, a numeric cell
renders in decimal. -/
def cellToString : Cell → String
  | .str s => s
  | .num n => toString n

/-- JavaScript truthiness of a possibly absent cell: undefined, the
empty string and the number zero are falsy. -/
def truthy : Option Cell → Bool
  | none => false
  | some (.str s) => !(s = "")
  | some (.num n) => !(n = 0)

/-- Digit test of the ASCII decimal digits. -/
def isDigitC (c : Char) : Bool :=
  '0' ≤ c && c ≤ '9'

/-- Value of a list of decimal digits. -/
def digitsToNat (l : List Char) : Nat :=
  l.foldl (fun a c => a * 10 + (c.toNat - '0'.toNat)) 0

/-- ECMAScript ToNumber on a string, restricted to decimal literals:
trim, empty gives zero, optional sign, integer digits with an optional
fraction.  NaN is none; hex, exponent and Infinity forms are outside
the modelled fragment (see the header comment). -/
def jsStringToNumber (s : String) : Option ℚ :=
  let l := dropTrailingWs (s.data.dropWhile isJsSpace)
  match l with
  | [] => some 0
  | _ =>
    let neg : Bool :=
      match l with
      | '-' :: _ => true
      | _ => false
    let body : List Char :=
      match l with
      | '-' :: r => r
      | '+' :: r => r
      | _ => l
    let ip := body.takeWhile isDigitC
    let rest := body.dropWhile isDigitC
    let mag : Option ℚ :=
      match rest with
      | [] => if ip.isEmpty then none else some ((digitsToNat ip : ℚ))
      | '.' :: fr =>
        if fr.all isDigitC ∧ ¬(ip.isEmpty ∧ fr.isEmpty) then
          some ((digitsToNat ip : ℚ) + (digitsToNat fr : ℚ) / ((10 : ℚ) ^ fr.length))
        else none
      | _ => none
    match mag with
    | some m => some (if neg then -m else m)
    | none => none

/-- Strip the characters of the currency regex class: whitespace, the
thousands comma, the currency word character and the currency sign. -/
def stripCurrencyChars (s : String) : String :=
  ⟨s.data.filter fun c => !(isJsSpace c || c = ',' || c = '원' || c = '₩')⟩

/-- The source's inline currency parse of a price cell (App.tsx line
178): Number of String of the cell with the currency characters
removed.  For a numeric cell the decimal rendering contains none of
the stripped characters and the coercion round-trips to the same
number. -/
def parsedPrice : Cell → Option ℚ
  | .str s => jsStringToNumber (stripCurrencyChars s)
  | .num n => some (n : ℚ)

/-! ### Workbook scanner (App.tsx lines 139-189) -/

/-- PriceItem (App.tsx line 6): one purchasable product at one
price-list version. -/
structure PriceItem where
  country : String
  name : String
  price : ℚ
  priceGroup : String
deriving DecidableEq, Repr

/-- MAX_ROWS_SAFE (App.tsx line 12): the fixed per-sheet row-count
safety ceiling. -/
def MAX_ROWS_SAFE : Nat := 20000

/-- ALLOWED_SHEETS (App.tsx line 13): the fixed allow-list of
permitted sheet names. -/
def ALLOWED_SHEETS : List String := ["(1)", "(2)", "(3)", "(4)"]

/-- Substring containment of the pattern in the text, modelling the
boolean regular-expression test of an alternation of literal words. -/
def containsSub (pat : List Char) : List Char → Bool
  | [] => pat.isEmpty
  | c :: r => pat.isPrefixOf (c :: r) || containsSub pat r

/-- A cell matching the product-name header pattern: a string cell
containing one of the two Korean product-name column labels. -/
def isNameCell : Cell → Bool
  | .str s => containsSub "품명".data s.data || containsSub "제품명".data s.data
  | .num _ => false

/-- A cell matching the price header pattern: a string cell containing
one of the two Korean price column labels. -/
def isPriceCell : Cell → Bool
  | .str s => containsSub "단가".data s.data || containsSub "가격".data s.data
  | .num _ => false

/-- Index of the first element satisfying the predicate, modelling
Array.prototype.findIndex (none for the source's minus-one result). -/
def findIdxA (p : α → Bool) : List α → Option Nat
  | [] => none
  | a :: r => if p a then some 0 else (findIdxA p r).map (· + 1)

/-- Header detection (App.tsx lines 159-163): a row is a header
candidate when some cell matches the name pattern; the candidate is
valid when a price-pattern cell is also found, and then yields the
pair of the name column index and the price column index. -/
def validHeader? (row : Row) : Option (Nat × Nat) :=
  if row.any isNameCell then
    match findIdxA isNameCell row, findIdxA isPriceCell row with
    | some n, some pi => some (n, pi)
    | _, _ => none
  else none

/-- The country cell read (App.tsx lines 169 and 173): the fixed
column B, normalized when it holds a string, empty otherwise. -/
def countryOf (row : Row) : String :=
  match row.get? 1 with
  | some (.str s) => normalizeCountry s
  | _ => ""

/-- Sticky-country update (App.tsx line 174): a non-empty normalized
country cell replaces the current country, anything else keeps it. -/
def nextCur (row : Row) (cur : String) : String :=
  let m := countryOf row
  if m = "" then cur else m

/-- The name cell read (App.tsx line 170): the detected name column,
with an absent cell coalesced to the empty string, coerced to text and
sanitized. -/
def nameOf (row : Row) (n : Nat) : String :=
  sanitizeText (cellToString ((row.get? n).getD (.str "")))

/-- The currency parse of the price cell at the detected column. -/
def parsedAt (row : Row) (p : Nat) : Option ℚ :=
  match row.get? p with
  | some c => parsedPrice c
  | none => none

/-- Emission decision for one data row given the already-updated
current country (App.tsx lines 176-181): skip when the sanitized name
is empty, the raw price cell is falsy or no current country is
established; otherwise parse the price and emit one PriceItem exactly
when the parse is a finite positive number. -/
def rowEmit (sheet : String) (row : Row) (n p : Nat) (cur : String) : List PriceItem :=
  if nameOf row n = "" then []
  else if truthy (row.get? p) = false then []
  else if cur = "" then []
  else
    match parsedAt row p with
    | some v => if 0 < v then [⟨cur, nameOf row n, v, sheet⟩] else []
    | none => []

/-- Full processing of one data row: update the sticky country, then
decide emission with the updated value. -/
def processRow (sheet : String) (row : Row) (n p : Nat) (cur : String) : List PriceItem :=
  rowEmit sheet row n p (nextCur row cur)

/-- The inner data-row walk below a valid header (App.tsx lines
165-182): every remaining row of the sheet is processed in order,
threading the sticky current country. -/
def walkRows (sheet : String) (n p : Nat) : List Row → String → List PriceItem
  | [], _ => []
  | row :: rest, cur =>
    processRow sheet row n p cur ++ walkRows sheet n p rest (nextCur row cur)

/-- The outer header scan of one permitted sheet (App.tsx lines
155-184): every row is tested as a header candidate, and each valid
header launches a fresh walk, with an empty initial current country,
over all rows below it to the end of the sheet. -/
def sheetGo (sheet : String) : List Row → List PriceItem
  | [] => []
  | row :: rest =>
    (match validHeader? row with
     | some (n, pi) => walkRows sheet n pi rest ""
     | none => []) ++ sheetGo sheet rest

/-- Scan error kinds of the upload handler, in the source surfaced as
thrown Error messages: no sheets at all, a permitted sheet over the
row ceiling (carrying the offending row count), or an empty aggregate
result. -/
inductive ScanError where
  | emptyWorkbook
  | sheetTooLarge (rowCount : Nat)
  | noValidItems
deriving DecidableEq, Repr

/-- Result of the scan: the collected item list or a fatal error. -/
inductive ScanResult where
  | ok (items : List PriceItem)
  | err (e : ScanError)
deriving DecidableEq, Repr

/-- The per-sheet collection loop (App.tsx lines 141-185): skip sheets
outside the allow-list, fail on the first permitted sheet over the row
ceiling, otherwise append the sheet's items in sheet order. -/
def collectSheets : Workbook → ScanResult
  | [] => .ok []
  | (name, rows) :: rest =>
    if name ∈ ALLOWED_SHEETS then
      if MAX_ROWS_SAFE < rows.length then .err (.sheetTooLarge rows.length)
      else
        match collectSheets rest with
        | .ok items => .ok (sheetGo name rows ++ items)
        | .err e => .err e
    else collectSheets rest

/-- The whole scan (App.tsx lines 135-189): an empty workbook fails
immediately; otherwise the sheets are collected, and an empty
aggregate fails with the no-valid-items error. -/
def scanWorkbook : Workbook → ScanResult
  | [] => .err .emptyWorkbook
  | wb =>
    match collectSheets wb with
    | .ok items => if items.isEmpty then .err .noValidItems else .ok items
    | .err e => .err e

/-! ### The specification's single-pass reading of a sheet -/

/-- Modelled from the spec: the single top-to-bottom pass over one
permitted sheet described in sections 4.2 and 9 of the design
document, with the column indices updated at each valid header row and
one sticky current-country accumulator that is threaded through the
whole sheet and never reset.  This is the comparison point for the
refinement statement about the scanner; data rows are processed only
once a valid header has been seen, with the code's own per-row
emission rule. -/
def specGo (sheet : String) : List Row → Option (Nat × Nat) → String → List PriceItem
  | [], _, _ => []
  | row :: rest, idxs, cur =>
    match validHeader? row with
    | some np => specGo sheet rest (some np) cur
    | none =>
      match idxs with
      | none => specGo sheet rest none cur
      | some (n, pi) =>
        processRow sheet row n pi cur ++ specGo sheet rest (some (n, pi)) (nextCur row cur)

/-- Concatenation of the lists produced for each element. -/
def concatMapL (f : α → List β) : List α → List β
  | [] => []
  | a :: r => f a ++ concatMapL f r

/-- The items of the code's collection loop, without the error
plumbing: per permitted sheet, the outer header scan. -/
def codeItems (wb : Workbook) : List PriceItem :=
  concatMapL (fun q => if q.1 ∈ ALLOWED_SHEETS then sheetGo q.1 q.2 else []) wb

/-- Modelled from the spec: the valid rows of a workbook, in sheet
order then row order, as produced by the single-pass reading of each
permitted sheet. -/
def specItems (wb : Workbook) : List PriceItem :=
  concatMapL (fun q => if q.1 ∈ ALLOWED_SHEETS then specGo q.1 q.2 none "" else []) wb

/-- Number of valid header rows of a sheet. -/
def headerCount (rows : List Row) : Nat :=
  rows.countP fun r => (validHeader? r).isSome

/-! ### Structure of sanitizeText output -/

/-- Membership is preserved by the trailing-whitespace drop. -/
lemma mem_dropTrailingWs {c : Char} : ∀ {l : List Char}, c ∈ dropTrailingWs l → c ∈ l
  | [], h => by simp [dropTrailingWs] at h
  | d :: r, h => by
    simp only [dropTrailingWs] at h
    split at h
    · exact absurd h (List.not_mem_nil c)
    · rcases List.mem_cons.mp h with h | h
      · exact h ▸ List.mem_cons_self d r
      · exact List.mem_cons_of_mem d (mem_dropTrailingWs h)

/-- Membership is preserved by dropWhile. -/
lemma mem_dropWhileP {p : Char → Bool} {c : Char} :
    ∀ {l : List Char}, c ∈ l.dropWhile p → c ∈ l
  | [], h => h
  | d :: r, h => by
    by_cases hd : p d
    · rw [List.dropWhile_cons_of_pos hd] at h
      exact List.mem_cons_of_mem d (mem_dropWhileP h)
    · rwa [List.dropWhile_cons_of_neg hd] at h

/-- A character of the collapsed list is a plain space or a
non-whitespace character of the input. -/
lemma mem_collapseWs {c : Char} :
    ∀ {l : List Char} {b : Bool}, c ∈ collapseWs l b →
      c = ' ' ∨ (c ∈ l ∧ isJsSpace c = false)
  | [], _, h => by simp [collapseWs] at h
  | d :: r, b, h => by
    by_cases hd : isJsSpace d
    · have step : c = ' ' ∨ c ∈ collapseWs r true := by
        cases b with
        | true =>
          simp only [collapseWs, hd, if_true] at h
          exact Or.inr h
        | false =>
          simp only [collapseWs, hd, if_true, Bool.false_eq_true, if_false] at h
          exact List.mem_cons.mp h
      rcases step with h' | h'
      · exact Or.inl h'
      · rcases mem_collapseWs h' with h'' | ⟨hm, hs⟩
        · exact Or.inl h''
        · exact Or.inr ⟨List.mem_cons_of_mem d hm, hs⟩
    · simp only [collapseWs, hd, if_false] at h
      rcases List.mem_cons.mp h with h | h
      · subst h
        exact Or.inr ⟨List.mem_cons_self c r, by simpa using hd⟩
      · rcases mem_collapseWs h with h'' | ⟨hm, hs⟩
        · exact Or.inl h''
        · exact Or.inr ⟨List.mem_cons_of_mem d hm, hs⟩

/-- No two adjacent whitespace characters. -/
def noDouble : List Char → Bool
  | [] => true
  | [_] => true
  | a :: b :: r => !(isJsSpace a && isJsSpace b) && noDouble (b :: r)

lemma noDouble_tail {a : Char} {l : List Char} (h : noDouble (a :: l) = true) :
    noDouble l = true := by
  cases l with
  | nil => rfl
  | cons b r => exact (Bool.and_eq_true_iff.mp h).2

lemma noDouble_cons {a : Char} {l : List Char} (h1 : noDouble l = true)
    (h2 : ∀ b, l.head? = some b → isJsSpace a = false ∨ isJsSpace b = false) :
    noDouble (a :: l) = true := by
  cases l with
  | nil => rfl
  | cons b r =>
    have hb := h2 b rfl
    simp only [noDouble, Bool.and_eq_true_iff]
    refine ⟨?_, h1⟩
    rcases hb with hb | hb <;> simp [hb]

/-- The head of a collapse started inside a whitespace run is never
whitespace. -/
lemma head_collapseWs_true {c : Char} :
    ∀ {l : List Char}, (collapseWs l true).head? = some c → isJsSpace c = false
  | [], h => by simp [collapseWs] at h
  | d :: r, h => by
    by_cases hd : isJsSpace d
    · simp only [collapseWs, hd, if_true] at h
      exact head_collapseWs_true h
    · simp [collapseWs, hd] at h
      rw [← h]
      simpa using hd

/-- Collapsed lists never contain two adjacent whitespace characters. -/
lemma noDouble_collapseWs : ∀ (l : List Char) (b : Bool), noDouble (collapseWs l b) = true
  | [], _ => rfl
  | d :: r, b => by
    by_cases hd : isJsSpace d
    · cases b with
      | true =>
        simp only [collapseWs, hd, if_true]
        exact noDouble_collapseWs r true
      | false =>
        simp only [collapseWs, hd, if_true, Bool.false_eq_true, if_false]
        refine noDouble_cons (noDouble_collapseWs r true) ?_
        intro b hb
        exact Or.inr (head_collapseWs_true hb)
    · simp only [collapseWs, hd, if_false]
      refine noDouble_cons (noDouble_collapseWs r false) ?_
      intro b _
      exact Or.inl (by simpa using hd)

lemma noDouble_dropWhileWs {l : List Char} (h : noDouble l = true) :
    noDouble (l.dropWhile isJsSpace) = true := by
  induction l with
  | nil => exact h
  | cons d r ih =>
    by_cases hd : isJsSpace d
    · rw [List.dropWhile_cons_of_pos hd]
      exact ih (noDouble_tail h)
    · rwa [List.dropWhile_cons_of_neg hd]

/-- The head survives the trailing-whitespace drop. -/
lemma head_dropTrailingWs {c : Char} {l : List Char}
    (h : (dropTrailingWs l).head? = some c) : l.head? = some c := by
  cases l with
  | nil => simp [dropTrailingWs] at h
  | cons d r =>
    simp only [dropTrailingWs] at h
    split at h
    · simp at h
    · simpa using h

lemma noDouble_dropTrailingWs : ∀ {l : List Char}, noDouble l = true →
    noDouble (dropTrailingWs l) = true
  | [], h => h
  | d :: r, h => by
    simp only [dropTrailingWs]
    split
    · rfl
    · refine noDouble_cons (noDouble_dropTrailingWs (noDouble_tail h)) ?_
      intro b hb
      have hr : r.head? = some b := head_dropTrailingWs hb
      cases r with
      | nil => simp at hr
      | cons e r₂ =>
        simp only [List.head?_cons, Option.some.injEq] at hr
        subst hr
        have hde : isJsSpace d = false ∨ isJsSpace e = false := by
          simpa using (Bool.and_eq_true_iff.mp h).1
        exact hde

/-! ### Identity of the pipeline on already-clean text -/

lemma map_id_on {f : α → α} : ∀ {l : List α}, (∀ a ∈ l, f a = a) → l.map f = l
  | [], _ => rfl
  | a :: r, h => by
    simp only [List.map_cons]
    rw [h a (List.mem_cons_self a r), map_id_on fun b hb => h b (List.mem_cons_of_mem a hb)]

lemma filter_id_on {p : α → Bool} : ∀ {l : List α}, (∀ a ∈ l, p a = true) → l.filter p = l
  | [], _ => rfl
  | a :: r, h => by
    rw [List.filter_cons_of_pos (h a (List.mem_cons_self a r)),
      filter_id_on fun b hb => h b (List.mem_cons_of_mem a hb)]

/-- Collapsing is the identity on a list whose whitespace characters
are all plain spaces and never adjacent. -/
lemma collapseWs_id : ∀ {l : List Char},
    (∀ c ∈ l, isJsSpace c = true → c = ' ') → noDouble l = true →
    (collapseWs l false = l ∧
      ((∀ c, l.head? = some c → isJsSpace c = false) → collapseWs l true = l))
  | [], _, _ => ⟨rfl, fun _ => rfl⟩
  | d :: r, hsp, hnd => by
    have iharg1 : ∀ c ∈ r, isJsSpace c = true → c = ' ' :=
      fun c hc => hsp c (List.mem_cons_of_mem d hc)
    have ih := collapseWs_id iharg1 (noDouble_tail hnd)
    by_cases hd : isJsSpace d
    · have hd' : d = ' ' := hsp d (List.mem_cons_self d r) hd
      have hr : ∀ c, r.head? = some c → isJsSpace c = false := by
        intro c hc
        cases r with
        | nil => simp at hc
        | cons e r₂ =>
          simp only [List.head?_cons, Option.some.injEq] at hc
          have hde : isJsSpace d = false ∨ isJsSpace e = false := by
            simpa using (Bool.and_eq_true_iff.mp hnd).1
          rw [← hc]
          rcases hde with h' | h'
          · rw [hd] at h'
            exact absurd h' (by simp)
          · exact h'
      constructor
      · simp only [collapseWs, hd, if_true, Bool.false_eq_true, if_false]
        rw [ih.2 hr, hd']
      · intro hhead
        have := hhead d rfl
        rw [hd] at this
        exact absurd this (by simp)
    · constructor
      · simp [collapseWs, hd, ih.1]
      · intro _
        simp [collapseWs, hd, ih.1]

lemma head_dropWhileWs {c : Char} :
    ∀ {l : List Char}, ((l.dropWhile isJsSpace).head? = some c) → isJsSpace c = false
  | [], h => by simp at h
  | d :: r, h => by
    by_cases hd : isJsSpace d
    · rw [List.dropWhile_cons_of_pos hd] at h
      exact head_dropWhileWs h
    · rw [List.dropWhile_cons_of_neg hd] at h
      simp only [List.head?_cons, Option.some.injEq] at h
      rw [← h]
      simpa using hd

lemma dropWhileWs_id {l : List Char}
    (h : ∀ c, l.head? = some c → isJsSpace c = false) :
    l.dropWhile isJsSpace = l := by
  cases l with
  | nil => rfl
  | cons d r => exact List.dropWhile_cons_of_neg (by simp [h d rfl])

lemma dropTrailingWs_idem : ∀ (l : List Char),
    dropTrailingWs (dropTrailingWs l) = dropTrailingWs l
  | [] => rfl
  | d :: r => by
    simp only [dropTrailingWs]
    split
    · rfl
    · simp only [dropTrailingWs, dropTrailingWs_idem r]
      split
      · rename_i hcond hcond'
        exact absurd hcond' hcond
      · rfl

lemma trimWs_idem (l : List Char) : trimWs (trimWs l) = trimWs l := by
  unfold trimWs
  rw [dropWhileWs_id, dropTrailingWs_idem]
  intro c hc
  exact head_dropWhileWs (head_dropTrailingWs hc)

/-- Every character of a sanitized list is a plain space or a
non-whitespace, non-zero-width character. -/
lemma sanitizeChars_mem {c : Char} {l : List Char} (h : c ∈ sanitizeChars l) :
    c = ' ' ∨ (isJsSpace c = false ∧ isZeroWidth c = false) := by
  unfold sanitizeChars trimWs at h
  have h1 : c ∈ collapseWs (replCrTab (stripZeroWidth (replNbsp (nfcChars l)))) false :=
    mem_dropWhileP (mem_dropTrailingWs h)
  rcases mem_collapseWs h1 with h2 | ⟨h2, hsp⟩
  · exact Or.inl h2
  · rcases List.mem_map.mp h2 with ⟨d, hd, hdc⟩
    by_cases hcr : d = '\r' || d = '\t'
    · rw [if_pos hcr] at hdc
      exact Or.inl hdc.symm
    · rw [if_neg hcr] at hdc
      subst hdc
      have hzw : isZeroWidth d = false := by
        have := (List.mem_filter.mp hd).2
        simpa using this
      exact Or.inr ⟨hsp, hzw⟩

/-- The sanitized list never contains two adjacent whitespace
characters. -/
lemma sanitizeChars_noDouble (l : List Char) : noDouble (sanitizeChars l) = true := by
  unfold sanitizeChars trimWs
  exact noDouble_dropTrailingWs (noDouble_dropWhileWs (noDouble_collapseWs _ false))

/-- Trimming is the identity on a sanitized list. -/
lemma sanitizeChars_trim (l : List Char) : trimWs (sanitizeChars l) = sanitizeChars l := by
  unfold sanitizeChars
  exact trimWs_idem _

/-- On a list whose sanitized form is left fixed by the modelled
normalize("NFC") step, the sanitizing pipeline is idempotent: after
the (vacuous) re-normalization, every later stage fixes the already
clean text.  The hypothesis is not removable: stripping a zero-width
character can expose a base letter to a following combining mark, so
re-normalizing the output composes them (see the counterexample). -/
lemma sanitizeChars_idem (l : List Char)
    (hn : nfcChars (sanitizeChars l) = sanitizeChars l) :
    sanitizeChars (sanitizeChars l) = sanitizeChars l := by
  have hmem := fun c (hc : c ∈ sanitizeChars l) => sanitizeChars_mem hc
  have h1 : replNbsp (sanitizeChars l) = sanitizeChars l := by
    apply map_id_on
    intro a ha
    rcases hmem a ha with h | ⟨h, _⟩
    · rw [h]
      decide
    · rw [if_neg]
      intro hEq
      rw [hEq] at h
      simp [isJsSpace] at h
  have h2 : stripZeroWidth (sanitizeChars l) = sanitizeChars l := by
    apply filter_id_on
    intro a ha
    rcases hmem a ha with h | ⟨_, h⟩
    · rw [h]
      decide
    · simp [h]
  have h3 : replCrTab (sanitizeChars l) = sanitizeChars l := by
    apply map_id_on
    intro a ha
    rcases hmem a ha with h | ⟨h, _⟩
    · rw [h]
      decide
    · rw [if_neg]
      intro hEq
      rcases Bool.or_eq_true_iff.mp hEq with h' | h' <;>
        · rw [decide_eq_true_iff] at h'
          rw [h'] at h
          simp [isJsSpace] at h
  have h4 : collapseWs (sanitizeChars l) false = sanitizeChars l := by
    refine (collapseWs_id ?_ (sanitizeChars_noDouble l)).1
    intro c hc hcsp
    rcases hmem c hc with h | ⟨h, _⟩
    · exact h
    · rw [hcsp] at h
      exact absurd h (by simp)
  show trimWs
      (collapseWs (replCrTab (stripZeroWidth (replNbsp (nfcChars (sanitizeChars l))))) false)
      = sanitizeChars l
  rw [hn, h1, h2, h3, h4, sanitizeChars_trim]

/-- Counterexample to C5 as stated: sanitizeText is not idempotent.
On the letter e followed by a zero-width space and a combining acute
accent, the first pass normalizes vacuously (the zero-width character
blocks composition) and then strips the zero-width character, leaving
the decomposed pair; the second pass's normalize("NFC") step composes
that pair into the precomposed letter, so re-sanitizing changes the
output. -/
theorem c5_sanitizeText_counterexample :
    sanitizeText (sanitizeText "e\u200B\u0301") ≠ sanitizeText "e\u200B\u0301" ∧
    sanitizeText "e\u200B\u0301" = "e\u0301" ∧
    sanitizeText (sanitizeText "e\u200B\u0301") = "\u00E9" := by
  refine ⟨by decide, by decide, by decide⟩

/-- C5 (amended): sanitizeText is total (a missing input is treated
as empty), its output never contains a non-breaking space, zero-width
character, tab or carriage return and has no leading or trailing
whitespace, and it is idempotent on every input whose sanitized form
is left fixed by canonical re-normalization — the unconditional
idempotence of the original claim fails because stripping zero-width
characters can expose newly composable pairs to the next pass's
normalize("NFC") step. -/
theorem c5_sanitizeText_amended (s : String) :
    sanitizeTextOpt none = "" ∧
    (∀ c ∈ (sanitizeText s).data,
      c ≠ '\u00A0' ∧ isZeroWidth c = false ∧ c ≠ '\t' ∧ c ≠ '\r') ∧
    trimWs (sanitizeText s).data = (sanitizeText s).data ∧
    (nfcChars (sanitizeText s).data = (sanitizeText s).data →
      sanitizeText (sanitizeText s) = sanitizeText s) := by
  refine ⟨?_, ?_, ?_, ?_⟩
  · rfl
  · intro c hc
    rcases sanitizeChars_mem hc with h | ⟨hsp, hzw⟩
    · subst h
      refine ⟨by decide, by decide, by decide, by decide⟩
    · refine ⟨?_, hzw, ?_, ?_⟩ <;>
        · intro hEq
          rw [hEq] at hsp
          simp [isJsSpace] at hsp
  · exact sanitizeChars_trim s.data
  · intro hn
    show (⟨sanitizeChars (sanitizeChars s.data)⟩ : String) = ⟨sanitizeChars s.data⟩
    rw [sanitizeChars_idem s.data hn]

/-! ### Data-row walk lemmas -/

/-- Every item emitted for a single data row carries the updated
current country, a non-empty name, a positive price and the sheet tag,
and can only exist when a current country is established. -/
lemma rowEmit_mem {sheet : String} {row : Row} {n p : Nat} {cur : String} {it : PriceItem}
    (h : it ∈ rowEmit sheet row n p cur) :
    it.country = cur ∧ cur ≠ "" ∧ it.name ≠ "" ∧ 0 < it.price ∧ it.priceGroup = sheet := by
  unfold rowEmit at h
  split at h
  · simp at h
  · split at h
    · simp at h
    · split at h
      · simp at h
      · rename_i hname htruthy hcur
        split at h
        · rename_i v hv
          split at h
          · rename_i hpos
            simp only [List.mem_singleton] at h
            subst h
            exact ⟨rfl, hcur, hname, hpos, rfl⟩
          · simp at h
        · simp at h

/-- Item properties of the full single-row processing step. -/
lemma processRow_mem {sheet : String} {row : Row} {n p : Nat} {cur : String} {it : PriceItem}
    (h : it ∈ processRow sheet row n p cur) :
    it.country = nextCur row cur ∧ nextCur row cur ≠ "" ∧
      it.name ≠ "" ∧ 0 < it.price ∧ it.priceGroup = sheet :=
  rowEmit_mem h

/-- A row whose country cell is empty leaves the sticky country
unchanged. -/
lemma nextCur_of_empty {row : Row} {cur : String} (h : countryOf row = "") :
    nextCur row cur = cur := by
  simp [nextCur, h]

/-- Basic validity of every item of a data-row walk. -/
lemma walkRows_mem {sheet : String} {n p : Nat} {it : PriceItem} :
    ∀ {l : List Row} {cur : String}, it ∈ walkRows sheet n p l cur →
      it.country ≠ "" ∧ it.name ≠ "" ∧ 0 < it.price ∧ it.priceGroup = sheet
  | [], _, h => by simp [walkRows] at h
  | row :: rest, cur, h => by
    rcases List.mem_append.mp h with h' | h'
    · obtain ⟨hc, hcne, hn, hp, hg⟩ := processRow_mem h'
      exact ⟨hc ▸ hcne, hn, hp, hg⟩
    · exact walkRows_mem h'

/-- When no later row introduces a country, every emitted item carries
the incoming sticky country. -/
lemma walkRows_country_const {sheet : String} {n p : Nat} {it : PriceItem} :
    ∀ {l : List Row} {cur : String}, (∀ r ∈ l, countryOf r = "") →
      it ∈ walkRows sheet n p l cur → it.country = cur
  | [], _, _, h => by simp [walkRows] at h
  | row :: rest, cur, hl, h => by
    have hrow : countryOf row = "" := hl row (List.mem_cons_self row rest)
    rcases List.mem_append.mp h with h' | h'
    · obtain ⟨hc, _, _, _, _⟩ := processRow_mem h'
      rw [hc, nextCur_of_empty hrow]
    · have := walkRows_country_const
        (fun r hr => hl r (List.mem_cons_of_mem row hr)) h'
      rwa [nextCur_of_empty hrow] at this

/-- Without an established current country no row can emit. -/
lemma rowEmit_empty_cur (sheet : String) (row : Row) (n p : Nat) :
    rowEmit sheet row n p "" = [] := by
  simp [rowEmit]

/-- A walk started with no current country over rows without country
cells emits nothing. -/
lemma walkRows_empty_country {sheet : String} {n p : Nat} :
    ∀ {l : List Row}, (∀ r ∈ l, countryOf r = "") → walkRows sheet n p l "" = []
  | [], _ => rfl
  | row :: rest, hl => by
    have hrow : countryOf row = "" := hl row (List.mem_cons_self row rest)
    show processRow sheet row n p "" ++ walkRows sheet n p rest (nextCur row "") = []
    rw [nextCur_of_empty hrow]
    show rowEmit sheet row n p (nextCur row "") ++ walkRows sheet n p rest "" = []
    rw [nextCur_of_empty hrow, rowEmit_empty_cur,
      walkRows_empty_country fun r hr => hl r (List.mem_cons_of_mem row hr)]
    rfl

/-- The sticky country after a run of rows. -/
def curAfter : List Row → String → String
  | [], c => c
  | r :: l, c => curAfter l (nextCur r c)

/-- A walk over a concatenation splits at the junction, resuming with
the sticky country accumulated over the first part. -/
lemma walkRows_append (sheet : String) (n p : Nat) :
    ∀ (a b : List Row) (cur : String),
      walkRows sheet n p (a ++ b) cur =
        walkRows sheet n p a cur ++ walkRows sheet n p b (curAfter a cur)
  | [], b, cur => rfl
  | row :: rest, b, cur => by
    show processRow sheet row n p cur ++ walkRows sheet n p (rest ++ b) (nextCur row cur) = _
    rw [walkRows_append sheet n p rest b (nextCur row cur)]
    simp [walkRows, curAfter]

/-- Rows without country cells leave the sticky country unchanged. -/
lemma curAfter_const : ∀ {l : List Row} {c : String},
    (∀ r ∈ l, countryOf r = "") → curAfter l c = c
  | [], _, _ => rfl
  | row :: rest, c, hl => by
    show curAfter rest (nextCur row c) = c
    rw [nextCur_of_empty (hl row (List.mem_cons_self row rest))]
    exact curAfter_const fun r hr => hl r (List.mem_cons_of_mem row hr)

/-! ### Concrete workbooks used as instances -/

/-- A typical header row: name label in column C, price label in
column D, country column B empty. -/
def headerRow : Row := [Cell.str "", Cell.str "", Cell.str "품명", Cell.str "단가"]

/-- A data row naming a country. -/
def rowBrazil : Row := [Cell.str "", Cell.str "브라질", Cell.str "원두", Cell.str "100"]

/-- A data row omitting the country cell. -/
def rowNoCtryB : Row := [Cell.str "", Cell.str "", Cell.str "원두B", Cell.str "200"]

/-- Another data row omitting the country cell. -/
def rowNoCtryC : Row := [Cell.str "", Cell.str "", Cell.str "원두C", Cell.str "300"]

/-- The sticky-propagation workbook of the specification's test
property: one header, one country row, two rows omitting the
country. -/
def wbSticky : Workbook := [("(1)", [headerRow, rowBrazil, rowNoCtryB, rowNoCtryC])]

/-- A sheet with a second header section that has no country rows of
its own. -/
def wbInherit : Workbook := [("(1)", [headerRow, rowBrazil, headerRow, rowNoCtryB])]

/-- C2: within a permitted sheet, once a data row's country cell
normalizes to a non-empty value, that value is carried by every item
of the following rows whose country cells normalize to empty, and a
later walk segment resumes exactly with that value (so only a new
non-empty normalized country can replace it).  Instantiated at the
specification's concrete three-row scenario by the witness. -/
theorem c2_sticky_country (sheet : String) (n p : Nat) (c₀ : String) (row : Row)
    (l₁ l₂ : List Row) (v : String) (hv : countryOf row = v) (hne : v ≠ "")
    (hl₁ : ∀ r ∈ l₁, countryOf r = "") :
    (∀ it ∈ walkRows sheet n p (row :: l₁) c₀, it.country = v) ∧
    walkRows sheet n p ((row :: l₁) ++ l₂) c₀ =
      walkRows sheet n p (row :: l₁) c₀ ++ walkRows sheet n p l₂ v := by
  have hnext : nextCur row c₀ = v := by
    simp [nextCur, hv, hne]
  constructor
  · intro it hit
    rcases List.mem_append.mp hit with h' | h'
    · obtain ⟨hc, _, _, _, _⟩ := processRow_mem h'
      rw [hc, hnext]
    · have := walkRows_country_const hl₁ h'
      rwa [hnext] at this
  · rw [walkRows_append]
    have : curAfter (row :: l₁) c₀ = v := by
      show curAfter l₁ (nextCur row c₀) = v
      rw [hnext]
      exact curAfter_const hl₁
    rw [this]

/-- Witness for C2: the three-row scenario of the specification; the
first row names Brazil, the two following rows omit the country, and
the full scan yields three items all carrying the canonical code. -/
theorem c2_sticky_country_witness :
    countryOf rowBrazil = "BR" ∧ ("BR" : String) ≠ "" ∧
    (∀ r ∈ [rowNoCtryB, rowNoCtryC], countryOf r = "") ∧
    (∀ it ∈ walkRows "(1)" 2 3 [rowBrazil, rowNoCtryB, rowNoCtryC] "", it.country = "BR") ∧
    walkRows "(1)" 2 3 ([rowBrazil, rowNoCtryB, rowNoCtryC] ++ []) "" =
      walkRows "(1)" 2 3 [rowBrazil, rowNoCtryB, rowNoCtryC] "" ++ walkRows "(1)" 2 3 [] "BR" ∧
    scanWorkbook wbSticky =
      .ok [⟨"BR", "원두", 100, "(1)"⟩, ⟨"BR", "원두B", 200, "(1)"⟩, ⟨"BR", "원두C", 300, "(1)"⟩] := by
  have h := c2_sticky_country "(1)" 2 3 "" rowBrazil [rowNoCtryB, rowNoCtryC] [] "BR"
    (by decide) (by decide) (by decide)
  exact ⟨by decide, by decide, by decide, h.1, h.2, by decide⟩

/-- C3: a data row under a later header section with no non-empty
country cell before it in that section still receives the country
established under the earlier section: the earlier header's walk runs
on past the new header row (whose own country cell is empty) carrying
the established country onto those rows, while the walk launched at
the new header itself starts with an empty current country and, with
no country cells below, emits nothing. -/
theorem c3_country_carries_across_header (sheet : String) (n p : Nat) (c : String)
    (hdr : Row) (l : List Row)
    (_hhdr : (validHeader? hdr).isSome = true)
    (hhc : countryOf hdr = "")
    (hl : ∀ r ∈ l, countryOf r = "")
    (_hc : c ≠ "") :
    (∀ it ∈ walkRows sheet n p (hdr :: l) c, it.country = c) ∧
    (∀ n' p', walkRows sheet n' p' l "" = []) := by
  constructor
  · intro it hit
    refine walkRows_country_const ?_ hit
    intro r hr
    rcases List.mem_cons.mp hr with h' | h'
    · rw [h']
      exact hhc
    · exact hl r h'
  · intro n' p'
    exact walkRows_empty_country hl

/-- Witness for C3: a sheet with a resumed header section; the scan
stamps the earlier country onto the data row below the second header,
which contributes exactly one item. -/
theorem c3_country_carries_across_header_witness :
    (validHeader? headerRow).isSome = true ∧
    countryOf headerRow = "" ∧
    (∀ r ∈ [rowNoCtryB], countryOf r = "") ∧
    ("BR" : String) ≠ "" ∧
    (∀ it ∈ walkRows "(1)" 2 3 [headerRow, rowNoCtryB] "BR", it.country = "BR") ∧
    (∀ n' p', walkRows "(1)" n' p' [rowNoCtryB] "" = []) ∧
    scanWorkbook wbInherit =
      .ok [⟨"BR", "원두", 100, "(1)"⟩, ⟨"BR", "원두B", 200, "(1)"⟩] := by
  have h := c3_country_carries_across_header "(1)" 2 3 "BR" headerRow [rowNoCtryB]
    (by decide) (by decide) (by decide) (by decide)
  exact ⟨by decide, by decide, by decide, by decide, h.1, h.2, by decide⟩

/-! ### Missing cells (ragged rows) -/

/-- Sanitizing the empty string yields the empty string. -/
lemma sanitizeText_empty : sanitizeText "" = "" := rfl

/-- An absent name cell coalesces to an empty name. -/
lemma nameOf_of_short {row : Row} {n : Nat} (h : row.length ≤ n) : nameOf row n = "" := by
  unfold nameOf
  rw [List.get?_eq_none.mpr h]
  exact sanitizeText_empty

/-- A row with no country column cannot change the sticky country. -/
lemma countryOf_of_short {row : Row} (h : row.length ≤ 1) : countryOf row = "" := by
  unfold countryOf
  rw [List.get?_eq_none.mpr h]

/-- An empty name forbids emission. -/
lemma rowEmit_of_name_empty {sheet : String} {row : Row} {n p : Nat} {cur : String}
    (h : nameOf row n = "") : rowEmit sheet row n p cur = [] := by
  simp [rowEmit, h]

/-- A falsy price cell forbids emission. -/
lemma rowEmit_of_price_falsy {sheet : String} {row : Row} {n p : Nat} {cur : String}
    (h : truthy (row.get? p) = false) : rowEmit sheet row n p cur = [] := by
  rw [List.get?_eq_getElem?] at h
  by_cases hn : nameOf row n = "" <;> simp [rowEmit, hn, h]

/-- C10 (amended): a missing cell is read as empty and never faults.
A data row shorter than the name column is skipped (empty name), one
shorter than the price column is skipped (falsy price cell); one
shorter than the fixed country column leaves the sticky country
unchanged, and is skipped only when no sticky country is currently
established — with an established sticky country such a row can still
emit, so absence of the country cell alone does not force a skip. -/
theorem c10_missing_cells_read_as_empty (sheet : String) (row : Row) (n p : Nat)
    (cur : String) :
    (row.length ≤ n → processRow sheet row n p cur = []) ∧
    (row.length ≤ p → processRow sheet row n p cur = []) ∧
    (row.length ≤ 1 →
      nextCur row cur = cur ∧ (cur = "" → processRow sheet row n p cur = [])) := by
  refine ⟨?_, ?_, ?_⟩
  · intro h
    exact rowEmit_of_name_empty (nameOf_of_short h)
  · intro h
    refine rowEmit_of_price_falsy ?_
    rw [List.get?_eq_none.mpr h]
    rfl
  · intro h
    have hc : nextCur row cur = cur := nextCur_of_empty (countryOf_of_short h)
    refine ⟨hc, ?_⟩
    intro hcur
    show rowEmit sheet row n p (nextCur row cur) = []
    rw [hc, hcur]
    exact rowEmit_empty_cur sheet row n p

/-- Witness for the amended C10 at a concrete one-cell row. -/
theorem c10_missing_cells_read_as_empty_witness :
    ([Cell.str "x"] : Row).length ≤ 3 ∧
    ([Cell.str "x"] : Row).length ≤ 5 ∧
    ([Cell.str "x"] : Row).length ≤ 1 ∧
    processRow "(1)" [Cell.str "x"] 3 5 "" = [] ∧
    nextCur [Cell.str "x"] "" = "" ∧
    (("" : String) = "" → processRow "(1)" [Cell.str "x"] 3 5 "" = []) := by
  have h := c10_missing_cells_read_as_empty "(1)" [Cell.str "x"] 3 5 ""
  exact ⟨by decide, by decide, by decide, h.1 (by decide), (h.2.2 (by decide)).1,
    (h.2.2 (by decide)).2⟩

/-- A one-column sheet: name and price labels share the single cell,
so the detected name and price columns are both column zero. -/
def wbNarrow : Workbook :=
  [("(1)", [[Cell.str "품명 단가"], [Cell.str "123", Cell.str "브라질"], [Cell.str "456"]])]

/-- Counterexample to C10 as stated: in wbNarrow the final row has a
single cell, so the fixed country column (index one) is absent, yet
the row is not skipped — the sticky country established by the
previous row fills in and the row emits an item. -/
theorem c10_short_row_counterexample :
    scanWorkbook wbNarrow =
      .ok [⟨"BR", "123", 123, "(1)"⟩, ⟨"BR", "456", 456, "(1)"⟩] ∧
    ([Cell.str "456"] : Row).length ≤ 1 ∧
    processRow "(1)" [Cell.str "456"] 0 0 "BR" = [⟨"BR", "456", 456, "(1)"⟩] := by
  refine ⟨by decide, by decide, by decide⟩

/-! ### Currency parsing (claim C8) -/

/-- C8: the inline currency parse maps the three specified formatted
strings to the value twelve thousand and the emission step accepts
them, while the zero, negative, alphabetic and empty price cells are
classified invalid and their rows rejected (the emission guard demands
a parse that is a finite positive number, and a falsy empty cell is
rejected before parsing). -/
theorem c8_currency_parsing :
    parsedPrice (Cell.str "12,000원") = some 12000 ∧
    parsedPrice (Cell.str "₩12000") = some 12000 ∧
    parsedPrice (Cell.str " 12000 ") = some 12000 ∧
    processRow "(1)" [Cell.str "A", Cell.str "브라질", Cell.str "12,000원"] 0 2 "" =
      [⟨"BR", "A", 12000, "(1)"⟩] ∧
    processRow "(1)" [Cell.str "A", Cell.str "브라질", Cell.str "₩12000"] 0 2 "" =
      [⟨"BR", "A", 12000, "(1)"⟩] ∧
    processRow "(1)" [Cell.str "A", Cell.str "브라질", Cell.str " 12000 "] 0 2 "" =
      [⟨"BR", "A", 12000, "(1)"⟩] ∧
    processRow "(1)" [Cell.str "A", Cell.str "브라질", Cell.str "0"] 0 2 "" = [] ∧
    processRow "(1)" [Cell.str "A", Cell.str "브라질", Cell.str "-5"] 0 2 "" = [] ∧
    processRow "(1)" [Cell.str "A", Cell.str "브라질", Cell.str "abc"] 0 2 "" = [] ∧
    processRow "(1)" [Cell.str "A", Cell.str "브라질", Cell.str ""] 0 2 "" = [] := by
  refine ⟨by decide, by decide, by decide, by decide, by decide, by decide, by decide,
    by decide, by decide, by decide⟩

/-! ### Country canonicalization (claims C6 and C7) -/

set_option maxRecDepth 2000 in
/-- C6: every entry of the canonical table maps to its code, and the
letter-spaced single-character variant of every Korean name in the
table normalizes to the same code as the unspaced form. -/
theorem c6_country_table_and_spaced_variants :
    ∀ q ∈ COUNTRY_ISO_MAP,
      normalizeCountry q.1 = q.2 ∧ normalizeCountry (letterSpaced q.1) = q.2 := by
  decide

/-- Witness for C6 at the Brazil entry. -/
theorem c6_country_table_and_spaced_variants_witness :
    (("브라질", "BR") ∈ COUNTRY_ISO_MAP) ∧
    (normalizeCountry "브라질" = "BR" ∧ normalizeCountry (letterSpaced "브라질") = "BR") :=
  ⟨by decide, c6_country_table_and_spaced_variants ("브라질", "BR") (by decide)⟩

/-- A key absent from an association list is not found. -/
lemma lookupCountry_eq_none {tbl : List (String × String)} {s : String}
    (h : ∀ q ∈ tbl, q.1 ≠ s) : lookupCountry tbl s = none := by
  induction tbl with
  | nil => rfl
  | cons q r ih =>
    obtain ⟨k, v⟩ := q
    have hk : k ≠ s := h (k, v) (List.mem_cons_self _ _)
    show (if s = k then some v else lookupCountry r s) = none
    rw [if_neg fun hs => hk hs.symm]
    exact ih fun q hq => h q (List.mem_cons_of_mem _ hq)

/-- Counterexample to C7 as stated, twice over: the string of two
single-letter tokens is not a key of the canonical table, yet
normalizeCountry does not return the cleaned text unchanged (the
letter-spacing repair rejoins the tokens before the lookup); and the
name of an inherited Object.prototype member is not a key of the
table either, yet the source's lookup guard finds the truthy
inherited member and returns it instead of the cleaned text. -/
theorem c7_passthrough_counterexample :
    ((∀ q ∈ COUNTRY_ISO_MAP, q.1 ≠ "a b") ∧
      normalizeCountry "a b" ≠ sanitizeText "a b") ∧
    ((∀ q ∈ COUNTRY_ISO_MAP, q.1 ≠ "constructor") ∧
      normalizeCountry "constructor" ≠ sanitizeText "constructor") := by
  refine ⟨⟨by decide, by decide⟩, ⟨by decide, by decide⟩⟩

/-- C7 (amended): normalizeCountry is the passthrough of sanitizeText
on every string whose cleaned form is not rejoined by the
letter-spacing repair (it is not a run of two or more
single-UTF-16-unit tokens), is not a key of the canonical table, and
does not name an inherited Object.prototype member (for those names
the plain-object lookup guard passes and the inherited member is
returned instead of the cleaned text). -/
theorem c7_passthrough_amended (s : String)
    (h1 : ¬(1 < (tokensOf (sanitizeText s).data).length ∧
        ∀ t ∈ tokensOf (sanitizeText s).data, utf16Len t = 1))
    (h2 : ∀ q ∈ COUNTRY_ISO_MAP, q.1 ≠ sanitizeText s)
    (h3 : sanitizeText s ∉ OBJECT_PROTOTYPE_MEMBERS) :
    normalizeCountry s = sanitizeText s := by
  simp only [normalizeCountry]
  rw [if_neg h1, lookupCountry_eq_none h2]
  show (if sanitizeText s ∈ OBJECT_PROTOTYPE_MEMBERS then
    inheritedObjectMember (sanitizeText s) else sanitizeText s) = sanitizeText s
  rw [if_neg h3]

/-- Witness for the amended C7 at a city name outside the table. -/
theorem c7_passthrough_amended_witness :
    (¬(1 < (tokensOf (sanitizeText "서울").data).length ∧
        ∀ t ∈ tokensOf (sanitizeText "서울").data, utf16Len t = 1)) ∧
    (∀ q ∈ COUNTRY_ISO_MAP, q.1 ≠ sanitizeText "서울") ∧
    (sanitizeText "서울" ∉ OBJECT_PROTOTYPE_MEMBERS) ∧
    normalizeCountry "서울" = sanitizeText "서울" :=
  ⟨by decide, by decide, by decide,
    c7_passthrough_amended "서울" (by decide) (by decide) (by decide)⟩

/-! ### Relating the outer header scan to the single-pass reading -/

/-- A sheet without a valid header emits nothing. -/
lemma sheetGo_nil_of_no_header {sheet : String} :
    ∀ {l : List Row}, (∀ r ∈ l, validHeader? r = none) → sheetGo sheet l = []
  | [], _ => rfl
  | row :: rest, h => by
    show (match validHeader? row with
      | some (n, pi) => walkRows sheet n pi rest ""
      | none => []) ++ sheetGo sheet rest = []
    rw [h row (List.mem_cons_self row rest),
      sheetGo_nil_of_no_header fun r hr => h r (List.mem_cons_of_mem row hr)]
    rfl

/-- The single pass emits nothing while no header has been seen. -/
lemma specGo_nil_of_no_header {sheet : String} :
    ∀ {l : List Row} {cur : String}, (∀ r ∈ l, validHeader? r = none) →
      specGo sheet l none cur = []
  | [], _, _ => rfl
  | row :: rest, cur, h => by
    show (match validHeader? row with
      | some np => specGo sheet rest (some np) cur
      | none =>
        match (none : Option (Nat × Nat)) with
        | none => specGo sheet rest none cur
        | some (n, pi) =>
          processRow sheet row n pi cur ++ specGo sheet rest (some (n, pi)) (nextCur row cur)) = []
    rw [h row (List.mem_cons_self row rest)]
    exact specGo_nil_of_no_header fun r hr => h r (List.mem_cons_of_mem row hr)

/-- Below its last valid header the single pass is exactly the code's
data-row walk. -/
lemma specGo_eq_walkRows {sheet : String} :
    ∀ {l : List Row} {n pi : Nat} {cur : String}, (∀ r ∈ l, validHeader? r = none) →
      specGo sheet l (some (n, pi)) cur = walkRows sheet n pi l cur
  | [], _, _, _, _ => rfl
  | row :: rest, n, pi, cur, h => by
    show (match validHeader? row with
      | some np => specGo sheet rest (some np) cur
      | none =>
        match (some (n, pi) : Option (Nat × Nat)) with
        | none => specGo sheet rest none cur
        | some (n, pi) =>
          processRow sheet row n pi cur ++ specGo sheet rest (some (n, pi)) (nextCur row cur)) =
      processRow sheet row n pi cur ++ walkRows sheet n pi rest (nextCur row cur)
    rw [h row (List.mem_cons_self row rest)]
    show processRow sheet row n pi cur ++ specGo sheet rest (some (n, pi)) (nextCur row cur) =
      processRow sheet row n pi cur ++ walkRows sheet n pi rest (nextCur row cur)
    rw [specGo_eq_walkRows fun r hr => h r (List.mem_cons_of_mem row hr)]

/-- On a sheet with at most one valid header row, the code's
rescanning outer loop coincides with the specification's single
pass. -/
lemma sheetGo_eq_specGo {sheet : String} :
    ∀ {l : List Row}, headerCount l ≤ 1 → sheetGo sheet l = specGo sheet l none ""
  | [], _ => rfl
  | row :: rest, h => by
    cases hv : validHeader? row with
    | some np =>
      obtain ⟨n, pi⟩ := np
      have hcnt : headerCount (row :: rest) = headerCount rest + 1 := by
        unfold headerCount
        rw [List.countP_cons_of_pos]
        simp [hv]
      have h0 : headerCount rest = 0 := by omega
      have hnone : ∀ r ∈ rest, validHeader? r = none := by
        intro r hr
        have hns := List.countP_eq_zero.mp h0 r hr
        cases hvr : validHeader? r with
        | none => rfl
        | some np => rw [hvr] at hns; simp at hns
      show (match validHeader? row with
        | some (n, pi) => walkRows sheet n pi rest ""
        | none => []) ++ sheetGo sheet rest = specGo sheet (row :: rest) none ""
      rw [hv, sheetGo_nil_of_no_header hnone, List.append_nil]
      show walkRows sheet n pi rest "" =
        (match validHeader? row with
          | some np => specGo sheet rest (some np) ""
          | none =>
            match (none : Option (Nat × Nat)) with
            | none => specGo sheet rest none ""
            | some (n, pi) =>
              processRow sheet row n pi "" ++ specGo sheet rest (some (n, pi)) (nextCur row ""))
      rw [hv]
      show walkRows sheet n pi rest "" = specGo sheet rest (some (n, pi)) ""
      rw [specGo_eq_walkRows hnone]
    | none =>
      have hcnt : headerCount (row :: rest) = headerCount rest := by
        unfold headerCount
        rw [List.countP_cons_of_neg]
        simp [hv]
      show (match validHeader? row with
        | some (n, pi) => walkRows sheet n pi rest ""
        | none => []) ++ sheetGo sheet rest = specGo sheet (row :: rest) none ""
      rw [hv, List.nil_append]
      show sheetGo sheet rest =
        (match validHeader? row with
          | some np => specGo sheet rest (some np) ""
          | none =>
            match (none : Option (Nat × Nat)) with
            | none => specGo sheet rest none ""
            | some (n, pi) =>
              processRow sheet row n pi "" ++ specGo sheet rest (some (n, pi)) (nextCur row ""))
      rw [hv]
      exact sheetGo_eq_specGo (by omega)

/-- Pointwise equal sheet readers produce equal workbook items. -/
lemma concatMapL_congr {f g : α → List β} :
    ∀ {l : List α}, (∀ a ∈ l, f a = g a) → concatMapL f l = concatMapL g l
  | [], _ => rfl
  | a :: r, h => by
    show f a ++ concatMapL f r = g a ++ concatMapL g r
    rw [h a (List.mem_cons_self a r),
      concatMapL_congr fun b hb => h b (List.mem_cons_of_mem a hb)]

/-- When no permitted sheet is oversized, the collection loop
succeeds with the concatenated per-sheet items. -/
lemma collectSheets_ok :
    ∀ {wb : Workbook}, (∀ q ∈ wb, q.1 ∈ ALLOWED_SHEETS → q.2.length ≤ MAX_ROWS_SAFE) →
      collectSheets wb = .ok (codeItems wb)
  | [], _ => rfl
  | (name, rows) :: rest, h => by
    have ih := collectSheets_ok fun q hq => h q (List.mem_cons_of_mem (name, rows) hq)
    by_cases ha : name ∈ ALLOWED_SHEETS
    · have hsz : ¬MAX_ROWS_SAFE < rows.length := by
        have hle : rows.length ≤ MAX_ROWS_SAFE := h (name, rows) (List.mem_cons_self _ _) ha
        omega
      show (if name ∈ ALLOWED_SHEETS then
        if MAX_ROWS_SAFE < rows.length then ScanResult.err (.sheetTooLarge rows.length)
        else match collectSheets rest with
          | .ok items => .ok (sheetGo name rows ++ items)
          | .err e => .err e
        else collectSheets rest) = .ok (codeItems ((name, rows) :: rest))
      rw [if_pos ha, if_neg hsz, ih]
      show ScanResult.ok (sheetGo name rows ++ codeItems rest) = _
      show _ = .ok ((if name ∈ ALLOWED_SHEETS then sheetGo name rows else []) ++ codeItems rest)
      rw [if_pos ha]
    · show (if name ∈ ALLOWED_SHEETS then
        if MAX_ROWS_SAFE < rows.length then ScanResult.err (.sheetTooLarge rows.length)
        else match collectSheets rest with
          | .ok items => .ok (sheetGo name rows ++ items)
          | .err e => .err e
        else collectSheets rest) = .ok (codeItems ((name, rows) :: rest))
      rw [if_neg ha, ih]
      show ScanResult.ok (codeItems rest) = _
      show _ = .ok ((if name ∈ ALLOWED_SHEETS then sheetGo name rows else []) ++ codeItems rest)
      rw [if_neg ha, List.nil_append]

/-- When every permitted sheet has at most one valid header row, the
code's items are the specification's single-pass items. -/
lemma codeItems_eq_specItems {wb : Workbook}
    (h : ∀ q ∈ wb, q.1 ∈ ALLOWED_SHEETS → headerCount q.2 ≤ 1) :
    codeItems wb = specItems wb := by
  refine concatMapL_congr ?_
  intro q hq
  by_cases ha : q.1 ∈ ALLOWED_SHEETS
  · rw [if_pos ha, if_pos ha, sheetGo_eq_specGo (h q hq ha)]
  · rw [if_neg ha, if_neg ha]

/-- C1 (amended): on a workbook that has at least one sheet, whose
permitted sheets all respect the row ceiling, and whose permitted
sheets each contain at most one valid header row, the scan fails with
the no-valid-items error exactly when the single-pass valid rows are
empty, and otherwise succeeds with exactly those rows in sheet order
then row order.  (The restriction to at most one valid header per
sheet is forced: with several valid headers the code re-walks every
row below each later header, so one valid row can contribute several
items — see the counterexample — and an empty workbook or an
oversized permitted sheet fails with a different error before the
no-valid-items test.) -/
theorem c1_scan_single_header_refinement (wb : Workbook)
    (h0 : wb ≠ [])
    (h1 : ∀ q ∈ wb, q.1 ∈ ALLOWED_SHEETS → q.2.length ≤ MAX_ROWS_SAFE)
    (h2 : ∀ q ∈ wb, q.1 ∈ ALLOWED_SHEETS → headerCount q.2 ≤ 1) :
    scanWorkbook wb =
      if specItems wb = [] then .err .noValidItems else .ok (specItems wb) := by
  have hc : collectSheets wb = .ok (codeItems wb) := collectSheets_ok h1
  have he : codeItems wb = specItems wb := codeItems_eq_specItems h2
  cases wb with
  | nil => exact absurd rfl h0
  | cons q rest =>
    show (match collectSheets (q :: rest) with
      | .ok items => if items.isEmpty then ScanResult.err .noValidItems else .ok items
      | .err e => .err e) = _
    rw [hc, he]
    by_cases hemp : specItems (q :: rest) = []
    · rw [if_pos hemp]
      show (if (specItems (q :: rest)).isEmpty then ScanResult.err .noValidItems
        else .ok (specItems (q :: rest))) = _
      rw [hemp]
      rfl
    · rw [if_neg hemp]
      show (if (specItems (q :: rest)).isEmpty then ScanResult.err .noValidItems
        else .ok (specItems (q :: rest))) = _
      have : (specItems (q :: rest)).isEmpty = false := by
        cases hsp : specItems (q :: rest) with
        | nil => exact absurd hsp hemp
        | cons a l => rfl
      rw [this]
      rfl

/-- A permitted sheet with the same valid header row twice above a
single valid data row. -/
def wbDoubleHeader : Workbook := [("(1)", [headerRow, headerRow, rowBrazil])]

/-- A well-formed one-header workbook. -/
def wbSimple : Workbook := [("(1)", [headerRow, rowBrazil])]

/-- Counterexample to C1 as stated: in wbDoubleHeader the single
valid data row contributes two identical items to the successful scan
(the walk below the first header and the walk below the second header
each emit it), whereas the single-pass valid rows contain it once —
so the scan does not return each valid row as one item. -/
theorem c1_scan_counterexample :
    scanWorkbook wbDoubleHeader =
      .ok [⟨"BR", "원두", 100, "(1)"⟩, ⟨"BR", "원두", 100, "(1)"⟩] ∧
    specItems wbDoubleHeader = [⟨"BR", "원두", 100, "(1)"⟩] := by
  refine ⟨by decide, by decide⟩

/-- Witness for the amended C1 at a concrete one-header workbook. -/
theorem c1_scan_single_header_refinement_witness :
    wbSimple ≠ [] ∧
    (∀ q ∈ wbSimple, q.1 ∈ ALLOWED_SHEETS → q.2.length ≤ MAX_ROWS_SAFE) ∧
    (∀ q ∈ wbSimple, q.1 ∈ ALLOWED_SHEETS → headerCount q.2 ≤ 1) ∧
    scanWorkbook wbSimple =
      (if specItems wbSimple = [] then .err .noValidItems else .ok (specItems wbSimple)) :=
  ⟨by decide, by decide, by decide,
    c1_scan_single_header_refinement wbSimple (by decide) (by decide) (by decide)⟩

/-! ### Item validity (claim C4) -/

/-- Every item of a sheet's scan is valid and tagged with the sheet. -/
lemma sheetGo_mem {sheet : String} {it : PriceItem} :
    ∀ {l : List Row}, it ∈ sheetGo sheet l →
      it.country ≠ "" ∧ it.name ≠ "" ∧ 0 < it.price ∧ it.priceGroup = sheet
  | [], h => by simp [sheetGo] at h
  | row :: rest, h => by
    have h' : it ∈ (match validHeader? row with
      | some (n, pi) => walkRows sheet n pi rest ""
      | none => []) ++ sheetGo sheet rest := h
    rcases List.mem_append.mp h' with h'' | h''
    · cases hv : validHeader? row with
      | some np =>
        obtain ⟨n, pi⟩ := np
        rw [hv] at h''
        exact walkRows_mem h''
      | none =>
        rw [hv] at h''
        simp at h''
    · exact sheetGo_mem h''

/-- Provenance of every item of a successful collection: it comes
from a permitted sheet of the workbook. -/
lemma collectSheets_mem {it : PriceItem} :
    ∀ {wb : Workbook} {items : List PriceItem}, collectSheets wb = .ok items →
      it ∈ items → ∃ q ∈ wb, q.1 ∈ ALLOWED_SHEETS ∧ it ∈ sheetGo q.1 q.2
  | [], items, h, hit => by
    have : items = [] := by
      have h' : ScanResult.ok [] = ScanResult.ok items := h
      cases h'
      rfl
    rw [this] at hit
    simp at hit
  | (name, rows) :: rest, items, h, hit => by
    by_cases ha : name ∈ ALLOWED_SHEETS
    · by_cases hsz : MAX_ROWS_SAFE < rows.length
      · have hbad : collectSheets ((name, rows) :: rest) =
            .err (.sheetTooLarge rows.length) := by
          show (if name ∈ ALLOWED_SHEETS then
            if MAX_ROWS_SAFE < rows.length then ScanResult.err (.sheetTooLarge rows.length)
            else match collectSheets rest with
              | .ok items => .ok (sheetGo name rows ++ items)
              | .err e => .err e
            else collectSheets rest) = _
          rw [if_pos ha, if_pos hsz]
        rw [hbad] at h
        cases h
      · cases hrest : collectSheets rest with
        | ok its =>
          have hok : collectSheets ((name, rows) :: rest) =
              .ok (sheetGo name rows ++ its) := by
            show (if name ∈ ALLOWED_SHEETS then
              if MAX_ROWS_SAFE < rows.length then ScanResult.err (.sheetTooLarge rows.length)
              else match collectSheets rest with
                | .ok items => .ok (sheetGo name rows ++ items)
                | .err e => .err e
              else collectSheets rest) = _
            rw [if_pos ha, if_neg hsz, hrest]
          rw [hok] at h
          have hitems : items = sheetGo name rows ++ its := by
            cases h
            rfl
          rw [hitems] at hit
          rcases List.mem_append.mp hit with h' | h'
          · exact ⟨(name, rows), List.mem_cons_self _ _, ha, h'⟩
          · obtain ⟨q, hq, hqa, hqm⟩ := collectSheets_mem hrest h'
            exact ⟨q, List.mem_cons_of_mem _ hq, hqa, hqm⟩
        | err e =>
          have hbad : collectSheets ((name, rows) :: rest) = .err e := by
            show (if name ∈ ALLOWED_SHEETS then
              if MAX_ROWS_SAFE < rows.length then ScanResult.err (.sheetTooLarge rows.length)
              else match collectSheets rest with
                | .ok items => .ok (sheetGo name rows ++ items)
                | .err e => .err e
              else collectSheets rest) = _
            rw [if_pos ha, if_neg hsz, hrest]
          rw [hbad] at h
          cases h
    · have hskip : collectSheets ((name, rows) :: rest) = collectSheets rest := by
        show (if name ∈ ALLOWED_SHEETS then
          if MAX_ROWS_SAFE < rows.length then ScanResult.err (.sheetTooLarge rows.length)
          else match collectSheets rest with
            | .ok items => .ok (sheetGo name rows ++ items)
            | .err e => .err e
          else collectSheets rest) = _
        rw [if_neg ha]
      rw [hskip] at h
      obtain ⟨q, hq, hqa, hqm⟩ := collectSheets_mem h hit
      exact ⟨q, List.mem_cons_of_mem _ hq, hqa, hqm⟩

/-- C4: every item of a successful scan carries a non-empty country
label, a non-empty sanitized name, a (finite, by construction of the
parse) strictly positive price, and a priceGroup that is the name of
the permitted workbook sheet it was collected from; and a sheet whose
name is outside the allow-list contributes nothing — the collection
of a workbook starting with such a sheet is the collection of the
rest. -/
theorem c4_item_validity (wb : Workbook) (items : List PriceItem)
    (h : scanWorkbook wb = .ok items) (it : PriceItem) (hit : it ∈ items) :
    (it.country ≠ "" ∧ it.name ≠ "" ∧ 0 < it.price ∧
      ∃ q ∈ wb, q.1 ∈ ALLOWED_SHEETS ∧ it.priceGroup = q.1 ∧ it ∈ sheetGo q.1 q.2) ∧
    (∀ (name : String) (rows : List Row) (rest : Workbook), name ∉ ALLOWED_SHEETS →
      collectSheets ((name, rows) :: rest) = collectSheets rest) := by
  constructor
  · cases wb with
    | nil =>
      have : (ScanResult.err .emptyWorkbook) = ScanResult.ok items := h
      cases this
    | cons q rest =>
      have hc : collectSheets (q :: rest) = .ok items := by
        cases hcs : collectSheets (q :: rest) with
        | ok its =>
          have hscan : scanWorkbook (q :: rest) =
              (if its.isEmpty then ScanResult.err .noValidItems else .ok its) := by
            show (match collectSheets (q :: rest) with
              | .ok items => if items.isEmpty then ScanResult.err .noValidItems else .ok items
              | .err e => .err e) = _
            rw [hcs]
          rw [hscan] at h
          cases hie : its.isEmpty with
          | true =>
            rw [hie] at h
            simp at h
          | false =>
            rw [hie] at h
            simp only [Bool.false_eq_true, if_false] at h
            cases h
            rfl
        | err e =>
          have hscan : scanWorkbook (q :: rest) = .err e := by
            show (match collectSheets (q :: rest) with
              | .ok items => if items.isEmpty then ScanResult.err .noValidItems else .ok items
              | .err e => .err e) = _
            rw [hcs]
          rw [hscan] at h
          cases h
      obtain ⟨q', hq', hqa, hqm⟩ := collectSheets_mem hc hit
      obtain ⟨hcne, hn, hp, hg⟩ := sheetGo_mem hqm
      exact ⟨hcne, hn, hp, q', hq', hqa, hg, hqm⟩
  · intro name rows rest hna
    show (if name ∈ ALLOWED_SHEETS then
      if MAX_ROWS_SAFE < rows.length then ScanResult.err (.sheetTooLarge rows.length)
      else match collectSheets rest with
        | .ok items => .ok (sheetGo name rows ++ items)
        | .err e => .err e
      else collectSheets rest) = _
    rw [if_neg hna]

/-- Witness for C4 at the one-header workbook and its single item. -/
theorem c4_item_validity_witness :
    scanWorkbook wbSimple = .ok [⟨"BR", "원두", 100, "(1)"⟩] ∧
    (⟨"BR", "원두", 100, "(1)"⟩ : PriceItem) ∈ [(⟨"BR", "원두", 100, "(1)"⟩ : PriceItem)] ∧
    (((⟨"BR", "원두", 100, "(1)"⟩ : PriceItem).country ≠ "" ∧
      (⟨"BR", "원두", 100, "(1)"⟩ : PriceItem).name ≠ "" ∧
      0 < (⟨"BR", "원두", 100, "(1)"⟩ : PriceItem).price ∧
      ∃ q ∈ wbSimple, q.1 ∈ ALLOWED_SHEETS ∧
        (⟨"BR", "원두", 100, "(1)"⟩ : PriceItem).priceGroup = q.1 ∧
        (⟨"BR", "원두", 100, "(1)"⟩ : PriceItem) ∈ sheetGo q.1 q.2) ∧
    (∀ (name : String) (rows : List Row) (rest : Workbook), name ∉ ALLOWED_SHEETS →
      collectSheets ((name, rows) :: rest) = collectSheets rest)) :=
  ⟨by decide, by decide,
    c4_item_validity wbSimple [⟨"BR", "원두", 100, "(1)"⟩] (by decide)
      ⟨"BR", "원두", 100, "(1)"⟩ (by decide)⟩

/-! ### Oversized sheets (claim C9) -/

/-- The collection loop fails with the oversized sheet's row count
when the workbook contains a permitted oversized sheet and no other
permitted oversized sheet precedes it. -/
lemma collectSheets_too_large {name : String} {rows : List Row} :
    ∀ {wb : Workbook}, (name, rows) ∈ wb → name ∈ ALLOWED_SHEETS →
      MAX_ROWS_SAFE < rows.length →
      (∀ q ∈ wb, q.1 ∈ ALLOWED_SHEETS → MAX_ROWS_SAFE < q.2.length → q = (name, rows)) →
      collectSheets wb = .err (.sheetTooLarge rows.length)
  | [], hmem, _, _, _ => by simp at hmem
  | (s, r) :: rest, hmem, ha, hsz, honly => by
    by_cases has : s ∈ ALLOWED_SHEETS
    · by_cases hsr : MAX_ROWS_SAFE < r.length
      · have heq : (s, r) = (name, rows) :=
          honly (s, r) (List.mem_cons_self _ _) has hsr
        have hr : r = rows := congrArg Prod.snd heq
        show (if s ∈ ALLOWED_SHEETS then
          if MAX_ROWS_SAFE < r.length then ScanResult.err (.sheetTooLarge r.length)
          else match collectSheets rest with
            | .ok items => .ok (sheetGo s r ++ items)
            | .err e => .err e
          else collectSheets rest) = _
        rw [if_pos has, if_pos hsr, hr]
      · have hne : (s, r) ≠ (name, rows) := by
          intro he
          have : r = rows := congrArg Prod.snd he
          rw [this] at hsr
          exact hsr hsz
        have hmem' : (name, rows) ∈ rest := by
          rcases List.mem_cons.mp hmem with he | hm
          · exact absurd he.symm hne
          · exact hm
        have ih := collectSheets_too_large hmem' ha hsz
          fun q hq => honly q (List.mem_cons_of_mem _ hq)
        show (if s ∈ ALLOWED_SHEETS then
          if MAX_ROWS_SAFE < r.length then ScanResult.err (.sheetTooLarge r.length)
          else match collectSheets rest with
            | .ok items => .ok (sheetGo s r ++ items)
            | .err e => .err e
          else collectSheets rest) = _
        rw [if_pos has, if_neg hsr, ih]
    · have hne : (s, r) ≠ (name, rows) := by
        intro he
        have : s = name := congrArg Prod.fst he
        rw [this] at has
        exact has ha
      have hmem' : (name, rows) ∈ rest := by
        rcases List.mem_cons.mp hmem with he | hm
        · exact absurd he.symm hne
        · exact hm
      have ih := collectSheets_too_large hmem' ha hsz
        fun q hq => honly q (List.mem_cons_of_mem _ hq)
      show (if s ∈ ALLOWED_SHEETS then
        if MAX_ROWS_SAFE < r.length then ScanResult.err (.sheetTooLarge r.length)
        else match collectSheets rest with
          | .ok items => .ok (sheetGo s r ++ items)
          | .err e => .err e
        else collectSheets rest) = _
      rw [if_neg has, ih]

/-- C9: a workbook containing a permitted sheet over the row ceiling
(and no earlier permitted oversized sheet, so that the named count is
this sheet's) fails as a whole with the sheet-too-large error
carrying that sheet's row count, regardless of the content of the
other sheets. -/
theorem c9_sheet_too_large (wb : Workbook) (name : String) (rows : List Row)
    (hmem : (name, rows) ∈ wb) (ha : name ∈ ALLOWED_SHEETS)
    (hsz : MAX_ROWS_SAFE < rows.length)
    (honly : ∀ q ∈ wb, q.1 ∈ ALLOWED_SHEETS → MAX_ROWS_SAFE < q.2.length →
      q = (name, rows)) :
    scanWorkbook wb = .err (.sheetTooLarge rows.length) := by
  have hcs := collectSheets_too_large hmem ha hsz honly
  cases wb with
  | nil => simp at hmem
  | cons q rest =>
    show (match collectSheets (q :: rest) with
      | .ok items => if items.isEmpty then ScanResult.err .noValidItems else .ok items
      | .err e => .err e) = _
    rw [hcs]

/-- A workbook whose only sheet is permitted and one row over the
ceiling, next to a well-formed permitted sheet. -/
def wbOversized : Workbook :=
  [("(2)", List.replicate 20001 ([] : Row)), ("(1)", [headerRow, rowBrazil])]

/-- Witness for C9: the oversized sheet makes the whole scan fail
with its row count even though the other permitted sheet would yield
a valid item. -/
theorem c9_sheet_too_large_witness :
    (("(2)", List.replicate 20001 ([] : Row)) ∈ wbOversized) ∧
    ("(2)" ∈ ALLOWED_SHEETS) ∧
    (MAX_ROWS_SAFE < (List.replicate 20001 ([] : Row)).length) ∧
    (∀ q ∈ wbOversized, q.1 ∈ ALLOWED_SHEETS → MAX_ROWS_SAFE < q.2.length →
      q = ("(2)", List.replicate 20001 ([] : Row))) ∧
    scanWorkbook wbOversized =
      .err (.sheetTooLarge (List.replicate 20001 ([] : Row)).length) := by
  have hm : (("(2)", List.replicate 20001 ([] : Row)) ∈ wbOversized) :=
    List.mem_cons_self _ _
  have ha : ("(2)" : String) ∈ ALLOWED_SHEETS := by decide
  have hsz : MAX_ROWS_SAFE < (List.replicate 20001 ([] : Row)).length := by
    rw [List.length_replicate]
    decide
  have honly : ∀ q ∈ wbOversized, q.1 ∈ ALLOWED_SHEETS → MAX_ROWS_SAFE < q.2.length →
      q = ("(2)", List.replicate 20001 ([] : Row)) := by
    intro q hq hqa hql
    rcases List.mem_cons.mp hq with he | hq' 
    · exact he
    · rcases List.mem_cons.mp hq' with he' | hq''
      · rw [he'] at hql
        have hql2 : MAX_ROWS_SAFE < ([headerRow, rowBrazil] : List Row).length := hql
        exact absurd hql2 (by decide)
      · simp at hq''
  exact ⟨hm, ha, hsz, honly, c9_sheet_too_large wbOversized _ _ hm ha hsz honly⟩

/-- Witness for the amended C5 at a string with leading and trailing
blanks, a non-breaking space and a zero-width space, whose sanitized
form is left fixed by re-normalization. -/
theorem c5_sanitizeText_witness :
    sanitizeTextOpt none = "" ∧
    (∀ c ∈ (sanitizeText "  a\u00A0b\u200B  ").data,
      c ≠ '\u00A0' ∧ isZeroWidth c = false ∧ c ≠ '\t' ∧ c ≠ '\r') ∧
    trimWs (sanitizeText "  a\u00A0b\u200B  ").data =
      (sanitizeText "  a\u00A0b\u200B  ").data ∧
    nfcChars (sanitizeText "  a\u00A0b\u200B  ").data =
      (sanitizeText "  a\u00A0b\u200B  ").data ∧
    sanitizeText (sanitizeText "  a\u00A0b\u200B  ") = sanitizeText "  a\u00A0b\u200B  " :=
  have h := c5_sanitizeText_amended "  a\u00A0b\u200B  "
  ⟨h.1, h.2.1, h.2.2.1, by decide, h.2.2.2 (by decide)⟩
